import Mathlib

/-!
Shallow embedding of the `triple_accel` SIMD vector abstraction
(`src/jewel.rs`, `src/lib.rs`) and proofs about it.

A 256-bit AVX2 word is modelled by its 32 byte lanes, as a `List Nat`
whose entries are byte values (`< 256`).  A logical vector (`AvxNx32x8`)
is a logical length together with an ordered list of words.  External
byte buffers (raw pointers in the source) are modelled as functions
`Nat → Nat` from byte offsets to byte values.  Machine arithmetic is
made explicit: 8-bit lane arithmetic is `% 256`, the `u32` accumulators
are `% 4294967296` and the 64-bit lanes of the SAD accumulator are
`% 18446744073709551616`.  Signed (`i8`) comparisons are expressed via
`toI8`, the two's-complement reading of a byte.

Operations whose Rust source performs an out-of-bounds word access on a
vector with zero words (`self.v.len() - 1` underflows `usize`, followed
by `get_unchecked`) are modelled as `Option`-valued, returning `none`
exactly on that undefined case.
-/

namespace TripleAccel

/-- One 256-bit word, as its 32 byte lanes. -/
abbrev Word := List Nat

/-- `_mm256_setzero_si256` as 32 byte lanes. -/
def zeroWord : Word := List.replicate 32 0

/-- The two's-complement (`i8`) value of a byte. -/
def toI8 (x : Nat) : Int := if x < 128 then (x : Int) else (x : Int) - 256

/-- `_mm256_set1_epi8(val as i8)`: broadcast the low byte of `val` into all 32 lanes. -/
def set1_epi8 (val : Nat) : Word := List.replicate 32 (val % 256)

/-- `_mm256_cmpeq_epi8`: lane is all-ones (byte 255) when the operand lanes are equal. -/
def cmpeq_epi8 (a b : Word) : Word :=
  (List.range 32).map (fun k => if a.getD k 0 = b.getD k 0 then 255 else 0)

/-- `_mm256_cmpgt_epi8`: lane is all-ones when the first operand lane is greater as a signed `i8`. -/
def cmpgt_epi8 (a b : Word) : Word :=
  (List.range 32).map (fun k => if toI8 (b.getD k 0) < toI8 (a.getD k 0) then 255 else 0)

/-- `_mm256_min_epi8`: per-lane signed minimum (`IF a < b THEN a ELSE b`). -/
def min_epi8 (a b : Word) : Word :=
  (List.range 32).map (fun k =>
    if toI8 (a.getD k 0) < toI8 (b.getD k 0) then a.getD k 0 else b.getD k 0)

/-- `_mm256_max_epi8`: per-lane signed maximum (`IF a > b THEN a ELSE b`). -/
def max_epi8 (a b : Word) : Word :=
  (List.range 32).map (fun k =>
    if toI8 (b.getD k 0) < toI8 (a.getD k 0) then a.getD k 0 else b.getD k 0)

/-- `_mm256_sub_epi8`: per-lane wrapping byte subtraction. -/
def sub_epi8 (a b : Word) : Word :=
  (List.range 32).map (fun k => (256 + a.getD k 0 % 256 - b.getD k 0 % 256) % 256)

/-- `_mm256_blendv_epi8(a, b, mask)`: a lane of `b` where the mask byte has its high
bit set, the lane of `a` otherwise. -/
def blendv_epi8 (a b mask : Word) : Word :=
  (List.range 32).map (fun k => if 128 ≤ mask.getD k 0 % 256 then b.getD k 0 else a.getD k 0)

/-- `_mm256_insert_epi8(w, val as i8, idx)`: replace lane `idx` with the low byte of `val`. -/
def insert_epi8 (w : Word) (val idx : Nat) : Word := w.set idx (val % 256)

/-- `_mm256_permute2x128_si256(a, b, c)`: each 128-bit half of the result is one of
the four 128-bit halves of `a`/`b` selected by a 4-bit control field (`c % 16` for
the low half, `c / 16` for the high half), or zero when the field's bit 3 is set. -/
def permute2x128 (a b : Word) (c : Nat) : Word :=
  (List.range 32).map (fun j =>
    let f := if j < 16 then c % 16 else c / 16 % 16
    let jl := j % 16
    if 8 ≤ f then 0
    else if f % 4 = 0 then a.getD jl 0
    else if f % 4 = 1 then a.getD (16 + jl) 0
    else if f % 4 = 2 then b.getD jl 0
    else b.getD (16 + jl) 0)

/-- `_mm256_alignr_epi8(a, b, n)`: within each 128-bit half, byte `j` of the result is
byte `j + n` of the 32-byte concatenation of that half of `b` (low) and of `a` (high),
zero when shifted past the end. -/
def alignr_epi8 (a b : Word) (n : Nat) : Word :=
  (List.range 32).map (fun j =>
    let l := j / 16
    let jl := j % 16
    if jl + n < 16 then b.getD (16 * l + jl + n) 0
    else if jl + n < 32 then a.getD (16 * l + jl + n - 16) 0
    else 0)

/-- Number of the first `k` byte lanes of `w` whose high bit is set. -/
def hibits (w : Word) : Nat → Nat
  | 0 => 0
  | k+1 => hibits w k + (if 128 ≤ w.getD k 0 % 256 then 1 else 0)

/-- `_mm256_movemask_epi8(w).count_ones()`: the movemask collects the high bit of each
of the 32 byte lanes, so its popcount is the number of lanes with the high bit set. -/
def movemask_popcount (w : Word) : Nat := hibits w 32

/-- Unsigned sum of the bytes `w[lo], …, w[lo+t-1]`. -/
def byteSum (w : Word) (lo : Nat) : Nat → Nat
  | 0 => 0
  | t+1 => byteSum w lo t + w.getD (lo + t) 0 % 256

/-- `_mm256_sad_epu8(w, zeros)`, viewed as its four 64-bit lanes: 64-bit lane `q` is
the sum of the absolute differences of bytes `8q..8q+8` of `w` with zero, i.e. the
plain unsigned sum of those 8 bytes. -/
def sad_epu8_zero (w : Word) : List Nat := (List.range 4).map (fun q => byteSum w (8 * q) 8)

/-- The all-zero 256-bit SAD accumulator, as its four 64-bit lanes. -/
def zeroSad : List Nat := List.replicate 4 0

/-- `_mm256_add_epi64`: wrapping addition of the four 64-bit lanes. -/
def add_epi64 (x y : List Nat) : List Nat :=
  (List.range 4).map (fun q => (x.getD q 0 + y.getD q 0) % 18446744073709551616)

/-- Materialize the SAD accumulator to `[u32; 8]` and sum entries 0, 2, 4, 6 (the low
32 bits of each 64-bit lane) with wrapping `u32` addition. -/
def sad_reduce (sad : List Nat) : Nat :=
  (((sad.getD 0 0 % 4294967296 + sad.getD 1 0 % 4294967296) % 4294967296
      + sad.getD 2 0 % 4294967296) % 4294967296
    + sad.getD 3 0 % 4294967296) % 4294967296

/-- `_mm256_loadu_si256(ptr.offset(i))` from a byte buffer: word `i` holds bytes
`32*i .. 32*i+31`. -/
def loadWord (p : Nat → Nat) (i : Nat) : Word := (List.range 32).map (fun k => p (32 * i + k))

/-- A `for i in lo..hi` loop folding a state. -/
def foldRange {α : Type} (lo hi : Nat) (f : α → Nat → α) (init : α) : α :=
  (List.range' lo (hi - lo)).foldl f init

/-- `AvxNx32x8`: a logical length and an ordered list of 256-bit words. -/
structure AvxNx32x8 where
  len : Nat
  v : List Word

/-- `upper_bound`: `self.v.len() << 5`. -/
def upper_bound (x : AvxNx32x8) : Nat := 32 * x.v.length

/-- `extract(i)`: store word `i >> 5` to a byte array and read byte `i & 31`. -/
def extract (x : AvxNx32x8) (i : Nat) : Nat := (x.v.getD (i / 32) zeroWord).getD (i % 32) 0

/-- `repeating(val, len)`: `(len >> 5) + if (len & 31) > 0 {1} else {0}` words, each
a broadcast of `val as i8`. -/
def repeating (val len : Nat) : AvxNx32x8 :=
  ⟨len, List.replicate (len / 32 + if len % 32 > 0 then 1 else 0) (set1_epi8 val)⟩

/-- `repeating_max(len)`: like `repeating` with the sentinel byte `127i8`. -/
def repeating_max (len : Nat) : AvxNx32x8 :=
  ⟨len, List.replicate (len / 32 + if len % 32 > 0 then 1 else 0) (set1_epi8 127)⟩

/-- `loadu(ptr, len)`: `len >> 5` full unaligned word loads; when `len & 31 > 0`, the
remaining bytes are staged through a zeroed 32-byte array, so the trailing partial
word is zero-padded. -/
def loadu (p : Nat → Nat) (len : Nat) : AvxNx32x8 :=
  let word_len := len / 32
  let word_rem := len % 32
  let full := (List.range word_len).map (loadWord p)
  ⟨len, if word_rem > 0 then
      full ++ [(List.range 32).map (fun i => if i < word_rem then p (32 * word_len + i) else 0)]
    else full⟩

/-- `slow_loadu(idx, ptr, len, reverse)`: byte-granular partial reload staged through
one 32-byte scratch array.  At step `i` the logical index is `idx + i` (or `idx - i`
when `reverse`); the containing word is loaded into the scratch when `arr_idx == 0
|| i == 0` and stored back when `arr_idx == 31 || i == len - 1`, exactly as in the
source (the conditions do not depend on `reverse`). -/
def slow_loadu (x : AvxNx32x8) (idx : Nat) (p : Nat → Nat) (len : Nat) (reverse : Bool) :
    AvxNx32x8 :=
  if len = 0 then x
  else
    let step := fun (s : Word × List Word) (i : Nat) =>
      let curr_idx := if reverse then idx - i else idx + i
      let arr_idx := curr_idx % 32
      let arr := if arr_idx = 0 ∨ i = 0 then s.2.getD (curr_idx / 32) zeroWord else s.1
      let arr := arr.set arr_idx (p i)
      let v := if arr_idx = 31 ∨ i = len - 1 then s.2.set (curr_idx / 32) arr else s.2
      (arr, v)
    ⟨x.len, (foldRange 0 len step (zeroWord, x.v)).2⟩

/-- `shift_left_1`: every word `i < n-1` becomes `alignr(permute2x128(curr, next,
0b00100001), curr, 1)` (its own lanes `1..31` followed by lane `0` of the next word);
the last word shifts in zero.  The source loop writes only word `i` at iteration `i`
and reads words `i` and `i + 1`, which are still unmodified, so the in-place loop is
this map.  `none` when there are no words (`self.v.len() - 1` underflows). -/
def shift_left_1 (x : AvxNx32x8) : Option AvxNx32x8 :=
  if x.v.length = 0 then none
  else some ⟨x.len, (List.range x.v.length).map (fun i =>
    if i + 1 < x.v.length then
      alignr_epi8 (permute2x128 (x.v.getD i zeroWord) (x.v.getD (i+1) zeroWord) 33)
        (x.v.getD i zeroWord) 1
    else
      alignr_epi8 (permute2x128 (x.v.getD i zeroWord) (x.v.getD i zeroWord) 129)
        (x.v.getD i zeroWord) 1)⟩

/-- `shift_right_1`: every word `i ≥ 1` becomes `alignr(curr, permute2x128(curr, prev,
0b00000011), 15)` (lane `31` of the previous word followed by its own lanes `0..30`);
word `0` shifts in zero.  The source loop runs `i` from `n-1` down to `1`, writing only
word `i` and reading words `i` and `i - 1`, which are still unmodified, so the in-place
loop is this map.  `none` when there are no words (`get_unchecked(0)` is out of
bounds). -/
def shift_right_1 (x : AvxNx32x8) : Option AvxNx32x8 :=
  if x.v.length = 0 then none
  else some ⟨x.len, (List.range x.v.length).map (fun i =>
    if i = 0 then
      alignr_epi8 (x.v.getD 0 zeroWord) (permute2x128 (x.v.getD 0 zeroWord) (x.v.getD 0 zeroWord) 8) 15
    else
      alignr_epi8 (x.v.getD i zeroWord) (permute2x128 (x.v.getD i zeroWord) (x.v.getD (i-1) zeroWord) 3) 15)⟩

/-- `insert(i, val)`: round-trip word `i >> 5` through a byte array, replacing byte
`i & 31`. -/
def insert (x : AvxNx32x8) (i val : Nat) : AvxNx32x8 :=
  ⟨x.len, x.v.set (i / 32) ((x.v.getD (i / 32) zeroWord).set (i % 32) (val % 256))⟩

/-- `insert_last_0(val)`: `_mm256_insert_epi8` at lane 31 of the last word; `none`
when there are no words (`self.v.len() - 1` underflows). -/
def insert_last_0 (x : AvxNx32x8) (val : Nat) : Option AvxNx32x8 :=
  if x.v.length = 0 then none
  else some ⟨x.len, x.v.set (x.v.length - 1)
    (insert_epi8 (x.v.getD (x.v.length - 1) zeroWord) val 31)⟩

/-- `insert_last_1(val)`: lane 30 of the last word; `none` when there are no words. -/
def insert_last_1 (x : AvxNx32x8) (val : Nat) : Option AvxNx32x8 :=
  if x.v.length = 0 then none
  else some ⟨x.len, x.v.set (x.v.length - 1)
    (insert_epi8 (x.v.getD (x.v.length - 1) zeroWord) val 30)⟩

/-- `insert_last_2(val)`: lane 29 of the last word; `none` when there are no words. -/
def insert_last_2 (x : AvxNx32x8) (val : Nat) : Option AvxNx32x8 :=
  if x.v.length = 0 then none
  else some ⟨x.len, x.v.set (x.v.length - 1)
    (insert_epi8 (x.v.getD (x.v.length - 1) zeroWord) val 29)⟩

/-- `insert_last_max()`: `i8::max_value() = 127` at lane 31 of the last word; `none`
when there are no words. -/
def insert_last_max (x : AvxNx32x8) : Option AvxNx32x8 :=
  if x.v.length = 0 then none
  else some ⟨x.len, x.v.set (x.v.length - 1)
    (insert_epi8 (x.v.getD (x.v.length - 1) zeroWord) 127 31)⟩

/-- `insert_first(val)`: lane 0 of word 0; `none` when there are no words
(`get_unchecked(0)` is out of bounds). -/
def insert_first (x : AvxNx32x8) (val : Nat) : Option AvxNx32x8 :=
  if x.v.length = 0 then none
  else some ⟨x.len, x.v.set 0 (insert_epi8 (x.v.getD 0 zeroWord) val 0)⟩

/-- `insert_first_max()`: `127` at lane 0 of word 0; `none` when there are no words. -/
def insert_first_max (x : AvxNx32x8) : Option AvxNx32x8 :=
  if x.v.length = 0 then none
  else some ⟨x.len, x.v.set 0 (insert_epi8 (x.v.getD 0 zeroWord) 127 0)⟩

/-- `cmpeq(a, b)`: fused clone + per-word `_mm256_cmpeq_epi8`. -/
def cmpeq (a b : AvxNx32x8) : AvxNx32x8 :=
  ⟨a.len, (List.range a.v.length).map (fun i => cmpeq_epi8 (a.v.getD i zeroWord) (b.v.getD i zeroWord))⟩

/-- `cmpgt(a, b)`: fused clone + per-word `_mm256_cmpgt_epi8`. -/
def cmpgt (a b : AvxNx32x8) : AvxNx32x8 :=
  ⟨a.len, (List.range a.v.length).map (fun i => cmpgt_epi8 (a.v.getD i zeroWord) (b.v.getD i zeroWord))⟩

/-- `min(a, b)`: fused clone + per-word `_mm256_min_epi8`. -/
def min (a b : AvxNx32x8) : AvxNx32x8 :=
  ⟨a.len, (List.range a.v.length).map (fun i => min_epi8 (a.v.getD i zeroWord) (b.v.getD i zeroWord))⟩

/-- `max(a, b)`: fused clone + per-word `_mm256_max_epi8`. -/
def max (a b : AvxNx32x8) : AvxNx32x8 :=
  ⟨a.len, (List.range a.v.length).map (fun i => max_epi8 (a.v.getD i zeroWord) (b.v.getD i zeroWord))⟩

/-- One word of the `res_min` output of `triple_min_length`:
`res_min2 = min(sub, min(a_gap, b_gap))`. -/
def tml_min_word (sub a_gap b_gap : Word) : Word := min_epi8 sub (min_epi8 a_gap b_gap)

/-- One word of the `res_length` output of `triple_min_length`, following the source
line by line: blend the gap lengths by `cmpgt(a_gap, b_gap)`, override with
`max(a_gap_length, b_gap_length)` where `cmpeq(a_gap, b_gap)`; then blend against
`sub_length` by `cmpgt(sub, res_min1)` and override with the max where
`cmpeq(sub, res_min1)`. -/
def tml_length_word (sub a_gap b_gap sub_length a_gap_length b_gap_length : Word) : Word :=
  let res_min1 := min_epi8 a_gap b_gap
  let a_b_gt_mask := cmpgt_epi8 a_gap b_gap
  let res_length1 := blendv_epi8 a_gap_length b_gap_length a_b_gt_mask
  let a_b_eq_mask := cmpeq_epi8 a_gap b_gap
  let a_b_max_len := max_epi8 a_gap_length b_gap_length
  let res_length1' := blendv_epi8 res_length1 a_b_max_len a_b_eq_mask
  let sub_gt_mask := cmpgt_epi8 sub res_min1
  let res_length2 := blendv_epi8 sub_length res_length1' sub_gt_mask
  let sub_eq_mask := cmpeq_epi8 sub res_min1
  let sub_max_len := max_epi8 sub_length res_length1'
  blendv_epi8 res_length2 sub_max_len sub_eq_mask

/-- `triple_min_length`: writes word `i` of `res_min`/`res_length` for every
`i < sub.v.len()`; words of the result operands beyond that range keep their old
value. -/
def triple_min_length (sub a_gap b_gap sub_length a_gap_length b_gap_length
    res_min res_length : AvxNx32x8) : AvxNx32x8 × AvxNx32x8 :=
  (⟨res_min.len, (List.range res_min.v.length).map (fun i =>
      if i < sub.v.length then
        tml_min_word (sub.v.getD i zeroWord) (a_gap.v.getD i zeroWord) (b_gap.v.getD i zeroWord)
      else res_min.v.getD i zeroWord)⟩,
   ⟨res_length.len, (List.range res_length.v.length).map (fun i =>
      if i < sub.v.length then
        tml_length_word (sub.v.getD i zeroWord) (a_gap.v.getD i zeroWord) (b_gap.v.getD i zeroWord)
          (sub_length.v.getD i zeroWord) (a_gap_length.v.getD i zeroWord) (b_gap_length.v.getD i zeroWord)
      else res_length.v.getD i zeroWord)⟩)

/-- `mm_count_mismatches(a_ptr, b_ptr, len)`: per-word equality compare collapsed by
movemask + popcount into a `u32` accumulator of matches, a scalar tail for
`len % 32` bytes, and finally `len as u32 - res` (wrapping `u32` arithmetic). -/
def mm_count_mismatches (a b : Nat → Nat) (len : Nat) : Nat :=
  let div_len := len / 32
  let res := foldRange 0 div_len (fun res i =>
    (res + movemask_popcount (cmpeq_epi8 (loadWord a i) (loadWord b i))) % 4294967296) 0
  let res := foldRange (32 * div_len) len (fun res i =>
    (res + if a i = b i then 1 else 0) % 4294967296) res
  (len % 4294967296 + (4294967296 - res)) % 4294967296

/-- `count_mismatches(a_ptr, b_ptr, len)`: `len / (255*32)` batches of 255 words; in a
batch, subtracting the equality mask from per-lane byte counters adds 1 on match;
after each batch (and the final partial batch) the byte counters are folded by
`_mm256_sad_epu8` into the four 64-bit lanes of `sad`; the low 32 bits of those four
lanes are summed, a scalar tail handles `len % 32` bytes, and the result is
`len as u32 - res`. -/
def count_mismatches (a b : Nat → Nat) (len : Nat) : Nat :=
  let refresh_len := len / (255 * 32)
  let sad := foldRange 0 refresh_len (fun sad i =>
    let curr := foldRange (i * 255) ((i + 1) * 255) (fun curr j =>
      sub_epi8 curr (cmpeq_epi8 (loadWord a j) (loadWord b j))) zeroWord
    add_epi64 sad (sad_epu8_zero curr)) zeroSad
  let word_len := len / 32
  let curr := foldRange (refresh_len * 255) word_len (fun curr j =>
    sub_epi8 curr (cmpeq_epi8 (loadWord a j) (loadWord b j))) zeroWord
  let sad := add_epi64 sad (sad_epu8_zero curr)
  let res := sad_reduce sad
  let res := foldRange (32 * word_len) len (fun res i =>
    (res + if a i = b i then 1 else 0) % 4294967296) res
  (len % 4294967296 + (4294967296 - res)) % 4294967296

/-- `vector_count_mismatches(a, b_ptr)`: the same batched strategy as
`count_mismatches`, with the left words taken from the vector `a` and the length
fixed to `a.v.len()` whole words; the result is `(a.v.len() << 5) as u32 - res`. -/
def vector_count_mismatches (a : AvxNx32x8) (b : Nat → Nat) : Nat :=
  let refresh_len := a.v.length / 255
  let sad := foldRange 0 refresh_len (fun sad i =>
    let curr := foldRange (i * 255) ((i + 1) * 255) (fun curr j =>
      sub_epi8 curr (cmpeq_epi8 (a.v.getD j zeroWord) (loadWord b j))) zeroWord
    add_epi64 sad (sad_epu8_zero curr)) zeroSad
  let curr := foldRange (refresh_len * 255) a.v.length (fun curr j =>
    sub_epi8 curr (cmpeq_epi8 (a.v.getD j zeroWord) (loadWord b j))) zeroWord
  let sad := add_epi64 sad (sad_epu8_zero curr)
  let res := sad_reduce sad
  (32 * a.v.length % 4294967296 + (4294967296 - res)) % 4294967296

/-- `fill_str(dest, src)` (`lib.rs`): `assert!(dest.len() >= src.len())` — modelled as
`none` on failure — then `copy_nonoverlapping` of `src` over the first `src.len()`
bytes of `dest`. -/
def fill_str (dest src : List Nat) : Option (List Nat) :=
  if src.length ≤ dest.length then some (src ++ dest.drop src.length) else none

/-- Number of indices `i` in `[lo, lo + n)` with `m i = true`. -/
def countTrue (m : Nat → Bool) (lo : Nat) : Nat → Nat
  | 0 => 0
  | n+1 => countTrue m lo n + (if m (lo + n) then 1 else 0)

/-- The reference byte-by-byte mismatch count over `[0, len)`. -/
def mismatchCount (a b : Nat → Nat) (len : Nat) : Nat :=
  countTrue (fun i => a i != b i) 0 len

/-- The signed (`i8`) lane minimum, as in the claim's `min(a_gap, b_gap)`. -/
def specMin8 (x y : Nat) : Nat := if toI8 x < toI8 y then x else y

/-- The signed (`i8`) lane maximum, as in the claim's `max(.., ..)` tie-break. -/
def specMax8 (x y : Nat) : Nat := if toI8 y < toI8 x then x else y

/-- Stage-1 length from the claim: on a cost tie `a_gap = b_gap` the longer length,
otherwise the length paired with the smaller cost. -/
def specStage1Len (ag bg al bl : Nat) : Nat :=
  if ag = bg then specMax8 al bl else if toI8 ag < toI8 bg then al else bl

/-- Stage-2 length from the claim: on a cost tie `sub = m1` the longer of
`sub_length` and the stage-1 length, otherwise the length paired with the smaller
cost. -/
def specStage2Len (s m1 sl l1 : Nat) : Nat :=
  if s = m1 then specMax8 sl l1 else if toI8 s < toI8 m1 then sl else l1

/-- Number of word indices `j` in `[lo, lo + n)` whose lane `k` matches:
`m (32*j + k) = true`.  This is the value lane `k` of the batch counter word
accumulates. -/
def lcount (m : Nat → Bool) (k lo : Nat) : Nat → Nat
  | 0 => 0
  | n+1 => lcount m k lo n + (if m (32 * (lo + n) + k) then 1 else 0)

/-- Sum of `lcount` over the lane band `[base, base + t)`. -/
def lsum (m : Nat → Bool) (base lo n : Nat) : Nat → Nat
  | 0 => 0
  | t+1 => lsum m base lo n t + lcount m (base + t) lo n

/-! ### Generic list and fold lemmas -/

theorem range'_snoc (s n : Nat) : List.range' s (n+1) = List.range' s n ++ [s + n] := by
  induction n generalizing s with
  | zero => simp
  | succ m ih =>
    rw [List.range'_succ, ih (s+1), List.range'_succ]
    simp
    omega

theorem foldl_range'_succ {α : Type} (f : α → Nat → α) (i : α) (s n : Nat) :
    (List.range' s (n+1)).foldl f i = f ((List.range' s n).foldl f i) (s + n) := by
  rw [range'_snoc, List.foldl_append]
  rfl

theorem getD_range_map (f : Nat → Nat) (m j : Nat) (h : j < m) :
    ((List.range m).map f).getD j 0 = f j := by
  rw [List.getD_eq_getElem _ _ (by simpa using h)]
  simp

theorem getD_replicate (n a j d : Nat) : (List.replicate n a).getD j d = if j < n then a else d := by
  rcases Nat.lt_or_ge j n with h | h
  · rw [List.getD_eq_getElem _ _ (by simpa using h), if_pos h]
    simp
  · rw [List.getD_eq_default _ _ (by simpa using h), if_neg (by omega)]

theorem zeroWord_getD (k : Nat) : zeroWord.getD k 0 = 0 := by
  unfold zeroWord
  rw [getD_replicate]
  simp

theorem zeroSad_getD (q : Nat) : zeroSad.getD q 0 = 0 := by
  unfold zeroSad
  rw [getD_replicate]
  simp

/-! ### Counting lemmas -/

theorem countTrue_le (m : Nat → Bool) (lo n : Nat) : countTrue m lo n ≤ n := by
  induction n with
  | zero => exact Nat.le_refl 0
  | succ n ih =>
    show countTrue m lo n + (if m (lo + n) then 1 else 0) ≤ n + 1
    by_cases h : m (lo + n) <;> simp [h] <;> omega

theorem countTrue_add (m : Nat → Bool) (lo x y : Nat) :
    countTrue m lo (x + y) = countTrue m lo x + countTrue m (lo + x) y := by
  induction y with
  | zero => rfl
  | succ y ih =>
    have h1 : x + (y + 1) = (x + y) + 1 := by omega
    rw [h1]
    show countTrue m lo (x + y) + (if m (lo + (x + y)) then 1 else 0) = _
    rw [ih]
    show _ = countTrue m lo x + (countTrue m (lo + x) y + (if m (lo + x + y) then 1 else 0))
    have h2 : lo + (x + y) = lo + x + y := by omega
    rw [h2, Nat.add_assoc]

theorem countTrue_compl (m : Nat → Bool) (lo n : Nat) :
    countTrue m lo n + countTrue (fun i => !(m i)) lo n = n := by
  induction n with
  | zero => rfl
  | succ n ih =>
    show countTrue m lo n + (if m (lo + n) then 1 else 0)
        + (countTrue (fun i => !(m i)) lo n + (if !(m (lo + n)) then 1 else 0)) = n + 1
    by_cases h : m (lo + n) <;> simp [h] <;> omega

theorem countTrue_congr (m m' : Nat → Bool) (lo n : Nat) (h : ∀ i, m i = m' i) :
    countTrue m lo n = countTrue m' lo n := by
  induction n with
  | zero => rfl
  | succ n ih =>
    show countTrue m lo n + (if m (lo + n) then 1 else 0)
        = countTrue m' lo n + (if m' (lo + n) then 1 else 0)
    rw [ih, h (lo + n)]

theorem lcount_le (m : Nat → Bool) (k lo n : Nat) : lcount m k lo n ≤ n := by
  induction n with
  | zero => exact Nat.le_refl 0
  | succ n ih =>
    show lcount m k lo n + (if m (32 * (lo + n) + k) then 1 else 0) ≤ n + 1
    by_cases h : m (32 * (lo + n) + k) <;> simp [h] <;> omega

theorem lcount_add (m : Nat → Bool) (k lo x y : Nat) :
    lcount m k lo (x + y) = lcount m k lo x + lcount m k (lo + x) y := by
  induction y with
  | zero => rfl
  | succ y ih =>
    have h1 : x + (y + 1) = (x + y) + 1 := by omega
    rw [h1]
    show lcount m k lo (x + y) + (if m (32 * (lo + (x + y)) + k) then 1 else 0) = _
    rw [ih]
    show _ = lcount m k lo x + (lcount m k (lo + x) y + (if m (32 * (lo + x + y) + k) then 1 else 0))
    have h2 : lo + (x + y) = lo + x + y := by omega
    rw [h2, Nat.add_assoc]

theorem lsum_le (m : Nat → Bool) (base lo n t : Nat) : lsum m base lo n t ≤ t * n := by
  induction t with
  | zero =>
    show (0 : Nat) ≤ 0 * n
    omega
  | succ t ih =>
    show lsum m base lo n t + lcount m (base + t) lo n ≤ (t + 1) * n
    have := lcount_le m (base + t) lo n
    have h1 : (t + 1) * n = t * n + n := by ring
    omega

theorem lsum_split (m : Nat → Bool) (base lo n x y : Nat) :
    lsum m base lo n (x + y) = lsum m base lo n x + lsum m (base + x) lo n y := by
  induction y with
  | zero => rfl
  | succ y ih =>
    have h1 : x + (y + 1) = (x + y) + 1 := by omega
    rw [h1]
    show lsum m base lo n (x + y) + lcount m (base + (x + y)) lo n = _
    rw [ih]
    show _ = lsum m base lo n x + (lsum m (base + x) lo n y + lcount m (base + x + y) lo n)
    have h2 : base + (x + y) = base + x + y := by omega
    rw [h2, Nat.add_assoc]

theorem lsum_add_words (m : Nat → Bool) (base lo x y t : Nat) :
    lsum m base lo (x + y) t = lsum m base lo x t + lsum m base (lo + x) y t := by
  induction t with
  | zero => rfl
  | succ t ih =>
    show lsum m base lo (x + y) t + lcount m (base + t) lo (x + y) = _
    rw [ih, lcount_add m (base + t) lo x y]
    show _ = lsum m base lo x t + lcount m (base + t) lo x
        + (lsum m base (lo + x) y t + lcount m (base + t) (lo + x) y)
    omega

theorem lsum_succ_words (m : Nat → Bool) (lo n t : Nat) :
    lsum m 0 lo (n + 1) t = lsum m 0 lo n t + countTrue m (32 * (lo + n)) t := by
  induction t with
  | zero => rfl
  | succ t ih =>
    show lsum m 0 lo (n + 1) t + lcount m (0 + t) lo (n + 1) = _
    rw [ih]
    show _ = lsum m 0 lo n t + lcount m (0 + t) lo n
        + (countTrue m (32 * (lo + n)) t + (if m (32 * (lo + n) + t) then 1 else 0))
    show lsum m 0 lo n t + countTrue m (32 * (lo + n)) t
        + (lcount m (0 + t) lo n + (if m (32 * (lo + n) + (0 + t)) then 1 else 0)) = _
    have h2 : 0 + t = t := by omega
    rw [h2]
    omega

theorem lsum_rows (m : Nat → Bool) (lo n : Nat) :
    lsum m 0 lo n 32 = countTrue m (32 * lo) (32 * n) := by
  induction n with
  | zero => rfl
  | succ n ih =>
    rw [lsum_succ_words, ih]
    have h1 : 32 * (n + 1) = 32 * n + 32 := by ring
    rw [h1, countTrue_add]
    have h2 : 32 * lo + 32 * n = 32 * (lo + n) := by ring
    rw [h2]

/-! ### Per-lane characterizations of the word operations -/

theorem loadWord_getD (p : Nat → Nat) (i k : Nat) (hk : k < 32) :
    (loadWord p i).getD k 0 = p (32 * i + k) := by
  unfold loadWord
  exact getD_range_map _ 32 k hk

theorem set1_epi8_getD (val k : Nat) (hk : k < 32) : (set1_epi8 val).getD k 0 = val % 256 := by
  unfold set1_epi8
  rw [getD_replicate, if_pos hk]

theorem cmpeq_epi8_getD (x y : Word) (k : Nat) (hk : k < 32) :
    (cmpeq_epi8 x y).getD k 0 = if x.getD k 0 = y.getD k 0 then 255 else 0 := by
  unfold cmpeq_epi8
  exact getD_range_map _ 32 k hk

theorem cmpgt_epi8_getD (x y : Word) (k : Nat) (hk : k < 32) :
    (cmpgt_epi8 x y).getD k 0 = if toI8 (y.getD k 0) < toI8 (x.getD k 0) then 255 else 0 := by
  unfold cmpgt_epi8
  exact getD_range_map _ 32 k hk

theorem min_epi8_getD (x y : Word) (k : Nat) (hk : k < 32) :
    (min_epi8 x y).getD k 0
      = if toI8 (x.getD k 0) < toI8 (y.getD k 0) then x.getD k 0 else y.getD k 0 := by
  unfold min_epi8
  exact getD_range_map _ 32 k hk

theorem max_epi8_getD (x y : Word) (k : Nat) (hk : k < 32) :
    (max_epi8 x y).getD k 0
      = if toI8 (y.getD k 0) < toI8 (x.getD k 0) then x.getD k 0 else y.getD k 0 := by
  unfold max_epi8
  exact getD_range_map _ 32 k hk

theorem sub_epi8_getD (x y : Word) (k : Nat) (hk : k < 32) :
    (sub_epi8 x y).getD k 0 = (256 + x.getD k 0 % 256 - y.getD k 0 % 256) % 256 := by
  unfold sub_epi8
  exact getD_range_map _ 32 k hk

theorem blendv_epi8_getD (x y mask : Word) (k : Nat) (hk : k < 32) :
    (blendv_epi8 x y mask).getD k 0
      = if 128 ≤ mask.getD k 0 % 256 then y.getD k 0 else x.getD k 0 := by
  unfold blendv_epi8
  exact getD_range_map _ 32 k hk

theorem add_epi64_getD (x y : List Nat) (q : Nat) (hq : q < 4) :
    (add_epi64 x y).getD q 0 = (x.getD q 0 + y.getD q 0) % 18446744073709551616 := by
  unfold add_epi64
  exact getD_range_map _ 4 q hq

theorem sad_epu8_zero_getD (wd : Word) (q : Nat) (hq : q < 4) :
    (sad_epu8_zero wd).getD q 0 = byteSum wd (8 * q) 8 := by
  unfold sad_epu8_zero
  exact getD_range_map _ 4 q hq

/-! ### The batched match-counting engine shared by the mismatch kernels -/

theorem batch_lanes (m : Nat → Bool) (w : Nat → Word)
    (hw : ∀ j k, k < 32 → (w j).getD k 0 = if m (32 * j + k) then 255 else 0)
    (lo : Nat) (k : Nat) (hk : k < 32) :
    ∀ n, n ≤ 255 →
      ((List.range' lo n).foldl (fun curr j => sub_epi8 curr (w j)) zeroWord).getD k 0
        = lcount m k lo n := by
  intro n
  induction n with
  | zero => intro _; exact zeroWord_getD k
  | succ n ih =>
    intro hn
    rw [foldl_range'_succ]
    show (sub_epi8 ((List.range' lo n).foldl (fun curr j => sub_epi8 curr (w j)) zeroWord)
        (w (lo + n))).getD k 0 = _
    rw [sub_epi8_getD _ _ k hk, ih (by omega), hw (lo + n) k hk]
    have hle := lcount_le m k lo n
    show (256 + lcount m k lo n % 256 - (if m (32 * (lo + n) + k) then 255 else 0) % 256) % 256
        = lcount m k lo n + (if m (32 * (lo + n) + k) then 1 else 0)
    by_cases h : m (32 * (lo + n) + k) <;> simp [h] <;> omega

theorem byteSum_lcount (m : Nat → Bool) (w : Nat → Word)
    (hw : ∀ j k, k < 32 → (w j).getD k 0 = if m (32 * j + k) then 255 else 0)
    (lo n : Nat) (hn : n ≤ 255) (base : Nat) :
    ∀ t, base + t ≤ 32 →
      byteSum ((List.range' lo n).foldl (fun curr j => sub_epi8 curr (w j)) zeroWord) base t
        = lsum m base lo n t := by
  intro t
  induction t with
  | zero => intro _; rfl
  | succ t ih =>
    intro ht
    show byteSum _ base t + (_ : Word).getD (base + t) 0 % 256 = _
    rw [ih (by omega), batch_lanes m w hw lo (base + t) (by omega) n hn]
    have hle := lcount_le m (base + t) lo n
    show lsum m base lo n t + lcount m (base + t) lo n % 256
        = lsum m base lo n t + lcount m (base + t) lo n
    omega

theorem lsum_zero_n (m : Nat → Bool) (base lo t : Nat) : lsum m base lo 0 t = 0 := by
  induction t with
  | zero => rfl
  | succ t ih =>
    show lsum m base lo 0 t + lcount m (base + t) lo 0 = 0
    rw [ih]
    rfl

theorem sad_fold_lanes (m : Nat → Bool) (w : Nat → Word)
    (hw : ∀ j k, k < 32 → (w j).getD k 0 = if m (32 * j + k) then 255 else 0)
    (q : Nat) (hq : q < 4) :
    ∀ B, B ≤ 4294967296 →
      ((List.range' 0 B).foldl (fun sad i =>
          add_epi64 sad (sad_epu8_zero ((List.range' (i * 255) 255).foldl
            (fun curr j => sub_epi8 curr (w j)) zeroWord))) zeroSad).getD q 0
        = lsum m (8 * q) 0 (B * 255) 8 := by
  intro B
  induction B with
  | zero =>
    intro _
    rw [show (0 * 255 : Nat) = 0 from rfl, lsum_zero_n]
    exact zeroSad_getD q
  | succ B ih =>
    intro hB
    rw [foldl_range'_succ]
    show (add_epi64 ((List.range' 0 B).foldl _ zeroSad)
        (sad_epu8_zero ((List.range' ((0 + B) * 255) 255).foldl
          (fun curr j => sub_epi8 curr (w j)) zeroWord))).getD q 0 = _
    rw [add_epi64_getD _ _ q hq, ih (by omega), sad_epu8_zero_getD _ q hq,
      byteSum_lcount m w hw ((0 + B) * 255) 255 (by omega) (8 * q) 8 (by omega)]
    have h3 : (0 + B) * 255 = B * 255 := by omega
    rw [h3]
    have h1 := lsum_le m (8 * q) 0 (B * 255) 8
    have h2 := lsum_le m (8 * q) (B * 255) 255 8
    have h4 : lsum m (8 * q) 0 (B * 255 + 255) 8
        = lsum m (8 * q) 0 (B * 255) 8 + lsum m (8 * q) (0 + B * 255) 255 8 :=
      lsum_add_words m (8 * q) 0 (B * 255) 255 8
    have h5 : (0 + B * 255 : Nat) = B * 255 := by omega
    rw [h5] at h4
    have h6 : (B + 1) * 255 = B * 255 + 255 := by omega
    rw [h6, h4]
    omega

theorem sad_reduce_eq (s : List Nat) (t0 t1 t2 t3 : Nat)
    (h0 : s.getD 0 0 = t0) (h1 : s.getD 1 0 = t1) (h2 : s.getD 2 0 = t2) (h3 : s.getD 3 0 = t3)
    (hb : t0 + t1 + t2 + t3 < 4294967296) :
    sad_reduce s = t0 + t1 + t2 + t3 := by
  unfold sad_reduce
  rw [h0, h1, h2, h3]
  omega

/-- The complete 255-word batched SAD pipeline over `wl` words computes the number of
matching lane positions among the `32 * wl` lanes. -/
theorem kernel_sad_core (m : Nat → Bool) (w : Nat → Word)
    (hw : ∀ j k, k < 32 → (w j).getD k 0 = if m (32 * j + k) then 255 else 0)
    (wl : Nat) (hwl : 32 * wl < 4294967296) :
    sad_reduce (add_epi64
      ((List.range' 0 (wl / 255)).foldl (fun sad i =>
          add_epi64 sad (sad_epu8_zero ((List.range' (i * 255) 255).foldl
            (fun curr j => sub_epi8 curr (w j)) zeroWord))) zeroSad)
      (sad_epu8_zero ((List.range' (wl / 255 * 255) (wl - wl / 255 * 255)).foldl
        (fun curr j => sub_epi8 curr (w j)) zeroWord)))
      = countTrue m 0 (32 * wl) := by
  have hB255 : wl / 255 * 255 ≤ wl := Nat.div_mul_le_self wl 255
  have hrem : wl - wl / 255 * 255 ≤ 255 := by omega
  have hBsmall : wl / 255 ≤ 4294967296 := by omega
  have hlane : ∀ q, q < 4 →
      (add_epi64
        ((List.range' 0 (wl / 255)).foldl (fun sad i =>
            add_epi64 sad (sad_epu8_zero ((List.range' (i * 255) 255).foldl
              (fun curr j => sub_epi8 curr (w j)) zeroWord))) zeroSad)
        (sad_epu8_zero ((List.range' (wl / 255 * 255) (wl - wl / 255 * 255)).foldl
          (fun curr j => sub_epi8 curr (w j)) zeroWord))).getD q 0
        = lsum m (8 * q) 0 wl 8 := by
    intro q hq
    rw [add_epi64_getD _ _ q hq, sad_fold_lanes m w hw q hq (wl / 255) hBsmall,
      sad_epu8_zero_getD _ q hq,
      byteSum_lcount m w hw (wl / 255 * 255) (wl - wl / 255 * 255) hrem (8 * q) 8 (by omega)]
    have h1 := lsum_le m (8 * q) 0 (wl / 255 * 255) 8
    have h2 := lsum_le m (8 * q) (wl / 255 * 255) (wl - wl / 255 * 255) 8
    have h4 : lsum m (8 * q) 0 (wl / 255 * 255 + (wl - wl / 255 * 255)) 8
        = lsum m (8 * q) 0 (wl / 255 * 255) 8
          + lsum m (8 * q) (0 + wl / 255 * 255) (wl - wl / 255 * 255) 8 :=
      lsum_add_words m (8 * q) 0 (wl / 255 * 255) (wl - wl / 255 * 255) 8
    have h5 : (0 + wl / 255 * 255 : Nat) = wl / 255 * 255 := by omega
    rw [h5] at h4
    have h6 : wl / 255 * 255 + (wl - wl / 255 * 255) = wl := by omega
    rw [h6] at h4
    rw [h4]
    omega
  have hs := sad_reduce_eq _ (lsum m (8 * 0) 0 wl 8) (lsum m (8 * 1) 0 wl 8)
    (lsum m (8 * 2) 0 wl 8) (lsum m (8 * 3) 0 wl 8)
    (hlane 0 (by omega)) (hlane 1 (by omega)) (hlane 2 (by omega)) (hlane 3 (by omega))
    (by
      have b0 := lsum_le m (8 * 0) 0 wl 8
      have b1 := lsum_le m (8 * 1) 0 wl 8
      have b2 := lsum_le m (8 * 2) 0 wl 8
      have b3 := lsum_le m (8 * 3) 0 wl 8
      omega)
  rw [hs]
  have hsplit : lsum m 0 0 wl 32
      = lsum m 0 0 wl 8 + lsum m 8 0 wl 8 + lsum m 16 0 wl 8 + lsum m 24 0 wl 8 := by
    rw [show (32 : Nat) = 8 + (8 + (8 + 8)) from rfl, lsum_split,
      lsum_split m (0 + 8) 0 wl 8 (8 + 8), lsum_split m (0 + 8 + 8) 0 wl 8 8]
    norm_num
    omega
  have hrows := lsum_rows m 0 wl
  rw [show (32 * 0 : Nat) = 0 from rfl] at hrows
  rw [← hrows, hsplit]

theorem hibits_count (m : Nat → Bool) (c : Word) (base : Nat)
    (hc : ∀ k, k < 32 → c.getD k 0 = if m (base + k) then 255 else 0) :
    ∀ t, t ≤ 32 → hibits c t = countTrue m base t := by
  intro t
  induction t with
  | zero => intro _; rfl
  | succ t ih =>
    intro ht
    show hibits c t + (if 128 ≤ c.getD t 0 % 256 then 1 else 0)
        = countTrue m base t + (if m (base + t) then 1 else 0)
    rw [ih (by omega), hc t (by omega)]
    by_cases h : m (base + t) <;> simp [h]

theorem mm_fold (m : Nat → Bool) (w : Nat → Word)
    (hw : ∀ j k, k < 32 → (w j).getD k 0 = if m (32 * j + k) then 255 else 0) :
    ∀ W, 32 * W < 4294967296 →
      (List.range' 0 W).foldl (fun res i => (res + movemask_popcount (w i)) % 4294967296) 0
        = countTrue m 0 (32 * W) := by
  intro W
  induction W with
  | zero => intro _; rfl
  | succ W ih =>
    intro hW
    rw [foldl_range'_succ]
    show ((List.range' 0 W).foldl
        (fun res i => (res + movemask_popcount (w i)) % 4294967296) 0
        + movemask_popcount (w (0 + W))) % 4294967296 = _
    rw [ih (by omega)]
    have hmw : movemask_popcount (w (0 + W)) = countTrue m (32 * (0 + W)) 32 :=
      hibits_count m (w (0 + W)) (32 * (0 + W))
        (fun k hk => hw (0 + W) k hk) 32 (by omega)
    rw [hmw]
    have h1 : (32 * (W + 1)) = 32 * W + 32 := by omega
    rw [h1, countTrue_add]
    have h2 : 32 * (0 + W) = 0 + 32 * W := by omega
    rw [h2]
    have hb1 := countTrue_le m 0 (32 * W)
    have hb2 := countTrue_le m (0 + 32 * W) 32
    omega

theorem tail_fold (a b : Nat → Nat) (lo r0 : Nat) :
    ∀ n, r0 + n < 4294967296 →
      (List.range' lo n).foldl (fun res i => (res + if a i = b i then 1 else 0) % 4294967296) r0
        = r0 + countTrue (fun i => a i == b i) lo n := by
  intro n
  induction n with
  | zero => intro _; rfl
  | succ n ih =>
    intro hn
    rw [foldl_range'_succ, ih (by omega)]
    show (r0 + countTrue (fun i => a i == b i) lo n
        + if a (lo + n) = b (lo + n) then 1 else 0) % 4294967296
        = r0 + (countTrue (fun i => a i == b i) lo n
          + if (a (lo + n) == b (lo + n)) = true then 1 else 0)
    have hb := countTrue_le (fun i => a i == b i) lo n
    by_cases h : a (lo + n) = b (lo + n) <;> simp [h, beq_iff_eq] <;> omega

theorem final_sub (len res : Nat) (h1 : res ≤ len) (h2 : len < 4294967296) :
    (len % 4294967296 + (4294967296 - res)) % 4294967296 = len - res := by
  omega

/-! ### Correctness of the three mismatch kernels -/

theorem mm_count_mismatches_eq (a b : Nat → Nat) (len : Nat) :
    mm_count_mismatches a b len =
      (len % 4294967296 + (4294967296 -
        (List.range' (32 * (len / 32)) (len - 32 * (len / 32))).foldl
          (fun res i => (res + if a i = b i then 1 else 0) % 4294967296)
          ((List.range' 0 (len / 32)).foldl
            (fun res i =>
              (res + movemask_popcount (cmpeq_epi8 (loadWord a i) (loadWord b i))) % 4294967296)
            0))) % 4294967296 := rfl

theorem count_mismatches_eq (a b : Nat → Nat) (len : Nat) :
    count_mismatches a b len =
      (len % 4294967296 + (4294967296 -
        (List.range' (32 * (len / 32)) (len - 32 * (len / 32))).foldl
          (fun res i => (res + if a i = b i then 1 else 0) % 4294967296)
          (sad_reduce (add_epi64
            ((List.range' 0 (len / (255 * 32))).foldl (fun sad i =>
                add_epi64 sad (sad_epu8_zero
                  ((List.range' (i * 255) ((i + 1) * 255 - i * 255)).foldl
                    (fun curr j => sub_epi8 curr (cmpeq_epi8 (loadWord a j) (loadWord b j)))
                    zeroWord)))
              zeroSad)
            (sad_epu8_zero
              ((List.range' (len / (255 * 32) * 255) (len / 32 - len / (255 * 32) * 255)).foldl
                (fun curr j => sub_epi8 curr (cmpeq_epi8 (loadWord a j) (loadWord b j)))
                zeroWord)))))) % 4294967296 := rfl

theorem vector_count_mismatches_eq (x : AvxNx32x8) (b : Nat → Nat) :
    vector_count_mismatches x b =
      (32 * x.v.length % 4294967296 + (4294967296 -
        sad_reduce (add_epi64
          ((List.range' 0 (x.v.length / 255)).foldl (fun sad i =>
              add_epi64 sad (sad_epu8_zero
                ((List.range' (i * 255) ((i + 1) * 255 - i * 255)).foldl
                  (fun curr j => sub_epi8 curr (cmpeq_epi8 (x.v.getD j zeroWord) (loadWord b j)))
                  zeroWord)))
            zeroSad)
          (sad_epu8_zero
            ((List.range' (x.v.length / 255 * 255) (x.v.length - x.v.length / 255 * 255)).foldl
              (fun curr j => sub_epi8 curr (cmpeq_epi8 (x.v.getD j zeroWord) (loadWord b j)))
              zeroWord))))) % 4294967296 := rfl

theorem mm_count_mismatches_correct (a b : Nat → Nat) (len : Nat) (h : len < 4294967296) :
    mm_count_mismatches a b len = len - countTrue (fun i => a i == b i) 0 len := by
  have hw : ∀ j k, k < 32 → (cmpeq_epi8 (loadWord a j) (loadWord b j)).getD k 0
      = if (a (32 * j + k) == b (32 * j + k)) = true then 255 else 0 := by
    intro j k hk
    rw [cmpeq_epi8_getD _ _ k hk, loadWord_getD a j k hk, loadWord_getD b j k hk]
    by_cases hab : a (32 * j + k) = b (32 * j + k) <;> simp [hab]
  rw [mm_count_mismatches_eq]
  rw [mm_fold (fun i => a i == b i) (fun i => cmpeq_epi8 (loadWord a i) (loadWord b i)) hw
    (len / 32) (by omega)]
  have hc := countTrue_le (fun i => a i == b i) 0 (32 * (len / 32))
  rw [tail_fold a b (32 * (len / 32)) (countTrue (fun i => a i == b i) 0 (32 * (len / 32)))
    (len - 32 * (len / 32)) (by omega)]
  have hadd := countTrue_add (fun i => a i == b i) 0 (32 * (len / 32)) (len - 32 * (len / 32))
  have e1 : 32 * (len / 32) + (len - 32 * (len / 32)) = len := by omega
  have e2 : (0 + 32 * (len / 32) : Nat) = 32 * (len / 32) := by omega
  rw [e1, e2] at hadd
  rw [← hadd]
  exact final_sub len (countTrue (fun i => a i == b i) 0 len)
    (countTrue_le (fun i => a i == b i) 0 len) h

theorem count_mismatches_correct (a b : Nat → Nat) (len : Nat) (h : len < 4294967296) :
    count_mismatches a b len = len - countTrue (fun i => a i == b i) 0 len := by
  have hw : ∀ j k, k < 32 → (cmpeq_epi8 (loadWord a j) (loadWord b j)).getD k 0
      = if (a (32 * j + k) == b (32 * j + k)) = true then 255 else 0 := by
    intro j k hk
    rw [cmpeq_epi8_getD _ _ k hk, loadWord_getD a j k hk, loadWord_getD b j k hk]
    by_cases hab : a (32 * j + k) = b (32 * j + k) <;> simp [hab]
  rw [count_mismatches_eq]
  have hdd : len / (255 * 32) = len / 32 / 255 := by
    rw [Nat.div_div_eq_div_mul]
  rw [hdd]
  have hfix : ∀ i : Nat, (i + 1) * 255 - i * 255 = 255 := fun i => by omega
  simp only [hfix]
  rw [kernel_sad_core (fun i => a i == b i)
    (fun j => cmpeq_epi8 (loadWord a j) (loadWord b j)) hw (len / 32) (by omega)]
  have hc := countTrue_le (fun i => a i == b i) 0 (32 * (len / 32))
  rw [tail_fold a b (32 * (len / 32)) (countTrue (fun i => a i == b i) 0 (32 * (len / 32)))
    (len - 32 * (len / 32)) (by omega)]
  have hadd := countTrue_add (fun i => a i == b i) 0 (32 * (len / 32)) (len - 32 * (len / 32))
  have e1 : 32 * (len / 32) + (len - 32 * (len / 32)) = len := by omega
  have e2 : (0 + 32 * (len / 32) : Nat) = 32 * (len / 32) := by omega
  rw [e1, e2] at hadd
  rw [← hadd]
  exact final_sub len (countTrue (fun i => a i == b i) 0 len)
    (countTrue_le (fun i => a i == b i) 0 len) h

theorem vector_count_mismatches_correct (x : AvxNx32x8) (b : Nat → Nat)
    (h : 32 * x.v.length < 4294967296) :
    vector_count_mismatches x b
      = 32 * x.v.length - countTrue (fun i => extract x i == b i) 0 (32 * x.v.length) := by
  have hw : ∀ j k, k < 32 → (cmpeq_epi8 (x.v.getD j zeroWord) (loadWord b j)).getD k 0
      = if (extract x (32 * j + k) == b (32 * j + k)) = true then 255 else 0 := by
    intro j k hk
    rw [cmpeq_epi8_getD _ _ k hk, loadWord_getD b j k hk]
    have he : extract x (32 * j + k) = (x.v.getD j zeroWord).getD k 0 := by
      unfold extract
      have e1 : (32 * j + k) / 32 = j := by omega
      have e2 : (32 * j + k) % 32 = k := by omega
      rw [e1, e2]
    rw [← he]
    by_cases hab : extract x (32 * j + k) = b (32 * j + k) <;> simp [hab]
  rw [vector_count_mismatches_eq]
  have hfix : ∀ i : Nat, (i + 1) * 255 - i * 255 = 255 := fun i => by omega
  simp only [hfix]
  rw [kernel_sad_core (fun i => extract x i == b i)
    (fun j => cmpeq_epi8 (x.v.getD j zeroWord) (loadWord b j)) hw x.v.length (by omega)]
  exact final_sub (32 * x.v.length)
    (countTrue (fun i => extract x i == b i) 0 (32 * x.v.length))
    (countTrue_le (fun i => extract x i == b i) 0 (32 * x.v.length)) h

theorem mismatchCount_eq_sub (a b : Nat → Nat) (len : Nat) :
    mismatchCount a b len = len - countTrue (fun i => a i == b i) 0 len := by
  unfold mismatchCount
  have hcg : countTrue (fun i => a i != b i) 0 len
      = countTrue (fun i => !(a i == b i)) 0 len :=
    countTrue_congr _ _ 0 len (fun i => rfl)
  have hcompl := countTrue_compl (fun i => a i == b i) 0 len
  omega

/-- C1: for all byte buffers `a`, `b` and every length `len` in the kernels' safe
envelope (`len < 2^32`, so the 32-bit match accumulator cannot overflow),
`mm_count_mismatches` and `count_mismatches` both equal the reference byte-by-byte
mismatch count, and hence agree with each other — for any length, aligned or not. -/
theorem C1_mismatch_kernels_agree (a b : Nat → Nat) (len : Nat) (h : len < 4294967296) :
    mm_count_mismatches a b len = mismatchCount a b len ∧
    count_mismatches a b len = mismatchCount a b len ∧
    mm_count_mismatches a b len = count_mismatches a b len := by
  have h1 := mm_count_mismatches_correct a b len h
  have h2 := count_mismatches_correct a b len h
  have h3 := mismatchCount_eq_sub a b len
  exact ⟨by rw [h1, h3], by rw [h2, h3], by rw [h1, h2]⟩

theorem C1_mismatch_kernels_agree_witness :
    (100 : Nat) < 4294967296 ∧
      (mm_count_mismatches (fun i => i % 7) (fun i => i % 5) 100
          = mismatchCount (fun i => i % 7) (fun i => i % 5) 100 ∧
        count_mismatches (fun i => i % 7) (fun i => i % 5) 100
          = mismatchCount (fun i => i % 7) (fun i => i % 5) 100 ∧
        mm_count_mismatches (fun i => i % 7) (fun i => i % 5) 100
          = count_mismatches (fun i => i % 7) (fun i => i % 5) 100) :=
  ⟨by norm_num, C1_mismatch_kernels_agree (fun i => i % 7) (fun i => i % 5) 100 (by norm_num)⟩

/-- C7: `vector_count_mismatches(a, b)` counts over `upper_bound a = 32 * a.v.length`
lanes (not an external `len`): within the overflow-safe envelope it returns
`upper_bound a` minus the number of lane positions `i < upper_bound a` whose lane
`extract a i` equals the byte `b i`. -/
theorem C7_vector_count_mismatches (x : AvxNx32x8) (b : Nat → Nat)
    (h : upper_bound x < 4294967296) :
    vector_count_mismatches x b
      = upper_bound x - countTrue (fun i => extract x i == b i) 0 (upper_bound x) := by
  unfold upper_bound at h ⊢
  exact vector_count_mismatches_correct x b h

theorem C7_vector_count_mismatches_witness :
    upper_bound (loadu (fun i => i % 7) 40) < 4294967296 ∧
      vector_count_mismatches (loadu (fun i => i % 7) 40) (fun i => i % 5)
        = upper_bound (loadu (fun i => i % 7) 40)
          - countTrue (fun i => extract (loadu (fun i => i % 7) 40) i == i % 5) 0
              (upper_bound (loadu (fun i => i % 7) 40)) :=
  ⟨by decide, C7_vector_count_mismatches (loadu (fun i => i % 7) 40) (fun i => i % 5) (by decide)⟩

/-! ### Construction and extraction: `loadu`, `repeating`, `extract` -/

theorem getD_map_range (f : Nat → Word) (m j : Nat) (h : j < m) :
    ((List.range m).map f).getD j zeroWord = f j := by
  rw [List.getD_eq_getElem _ _ (by simpa using h)]
  simp

theorem getD_replicate_word (n : Nat) (a : Word) (j : Nat) (h : j < n) :
    (List.replicate n a).getD j zeroWord = a := by
  rw [List.getD_eq_getElem _ _ (by simpa using h)]
  simp

theorem loadu_v_length (p : Nat → Nat) (len : Nat) :
    (loadu p len).v.length = len / 32 + (if len % 32 > 0 then 1 else 0) := by
  show (if len % 32 > 0 then
      (List.range (len / 32)).map (loadWord p)
        ++ [(List.range 32).map (fun i => if i < len % 32 then p (32 * (len / 32) + i) else 0)]
    else (List.range (len / 32)).map (loadWord p)).length = _
  by_cases hc : len % 32 > 0 <;> simp [hc]

theorem loadu_v_getD (p : Nat → Nat) (len j : Nat)
    (hj : j < len / 32 + (if len % 32 > 0 then 1 else 0)) :
    (loadu p len).v.getD j zeroWord
      = if j < len / 32 then loadWord p j
        else (List.range 32).map (fun k => if k < len % 32 then p (32 * (len / 32) + k) else 0) := by
  show (if len % 32 > 0 then
      (List.range (len / 32)).map (loadWord p)
        ++ [(List.range 32).map (fun i => if i < len % 32 then p (32 * (len / 32) + i) else 0)]
    else (List.range (len / 32)).map (loadWord p)).getD j zeroWord = _
  by_cases hc : len % 32 > 0
  · rw [if_pos hc]
    rcases Nat.lt_or_ge j (len / 32) with h1 | h1
    · rw [List.getD_append _ _ _ _ (by simpa using h1), getD_map_range _ _ j h1, if_pos h1]
    · rw [if_pos hc] at hj
      have hj' : j = len / 32 := by omega
      rw [List.getD_append_right _ _ _ _ (by simpa using h1)]
      simp only [List.length_map, List.length_range]
      rw [hj']
      rw [if_neg (by omega)]
      show ([(List.range 32).map
          (fun i => if i < len % 32 then p (32 * (len / 32) + i) else 0)]).getD (len / 32 - len / 32) zeroWord = _
      rw [Nat.sub_self]
      rfl
  · rw [if_neg hc]
    rw [if_neg hc] at hj
    have h1 : j < len / 32 := by omega
    rw [getD_map_range _ _ j h1, if_pos h1]

theorem extract_loadu (p : Nat → Nat) (len i : Nat)
    (hi : i < upper_bound (loadu p len)) :
    extract (loadu p len) i = if i < len then p i else 0 := by
  unfold upper_bound at hi
  rw [loadu_v_length] at hi
  have hdiv : i / 32 < len / 32 + (if len % 32 > 0 then 1 else 0) := by
    by_cases hc : len % 32 > 0 <;> simp [hc] at hi ⊢ <;> omega
  unfold extract
  rw [loadu_v_getD p len (i / 32) hdiv]
  rcases Nat.lt_or_ge (i / 32) (len / 32) with h1 | h1
  · rw [if_pos h1, loadWord_getD p (i / 32) (i % 32) (by omega)]
    have e : 32 * (i / 32) + i % 32 = i := by omega
    rw [e, if_pos (by omega)]
  · rw [if_neg (by omega), getD_range_map _ 32 (i % 32) (by omega)]
    have hc : len % 32 > 0 := by
      by_cases hc : len % 32 > 0
      · exact hc
      · rw [if_neg hc] at hdiv
        omega
    rw [if_pos hc] at hdiv
    have hj' : i / 32 = len / 32 := by omega
    by_cases h2 : i < len
    · rw [if_pos (by omega), if_pos h2]
      have e : 32 * (len / 32) + i % 32 = i := by omega
      rw [e]
    · rw [if_neg (by omega), if_neg h2]

/-- C4: `loadu(src, L)` followed by `extract` returns `src i` at every `i < L`, zero at
every backed lane at or beyond `L`, and the loaded vector depends only on the first
`L` source bytes (no byte at offset `≥ L` is read). -/
theorem C4_loadu_round_trip (p : Nat → Nat) (len : Nat) :
    (∀ i, i < len → extract (loadu p len) i = p i) ∧
    (∀ i, len ≤ i → i < upper_bound (loadu p len) → extract (loadu p len) i = 0) ∧
    (∀ q : Nat → Nat, (∀ i, i < len → p i = q i) → loadu p len = loadu q len) := by
  refine ⟨fun i hi => ?_, fun i hle hi => ?_, fun q hpq => ?_⟩
  · have hb : i < upper_bound (loadu p len) := by
      unfold upper_bound
      rw [loadu_v_length]
      by_cases hc : len % 32 > 0 <;> simp [hc] <;> omega
    rw [extract_loadu p len i hb, if_pos hi]
  · rw [extract_loadu p len i hi, if_neg (by omega)]
  · simp only [loadu]
    have hfull : (List.range (len / 32)).map (loadWord p)
        = (List.range (len / 32)).map (loadWord q) := by
      apply List.map_congr_left
      intro j hj
      have hj' : j < len / 32 := List.mem_range.mp hj
      unfold loadWord
      apply List.map_congr_left
      intro k hk
      have hk' : k < 32 := List.mem_range.mp hk
      exact hpq (32 * j + k) (by omega)
    have htail : (List.range 32).map (fun k => if k < len % 32 then p (32 * (len / 32) + k) else 0)
        = (List.range 32).map (fun k => if k < len % 32 then q (32 * (len / 32) + k) else 0) := by
      apply List.map_congr_left
      intro k hk
      have hk' : k < 32 := List.mem_range.mp hk
      by_cases hr : k < len % 32
      · rw [if_pos hr, if_pos hr, hpq (32 * (len / 32) + k) (by omega)]
      · rw [if_neg hr, if_neg hr]
    rw [hfull, htail]

theorem C4_loadu_round_trip_witness :
    ((5 : Nat) < 33 ∧ extract (loadu (fun i => i + 2) 33) 5 = 5 + 2) ∧
    ((33 : Nat) ≤ 40 ∧ 40 < upper_bound (loadu (fun i => i + 2) 33)
      ∧ extract (loadu (fun i => i + 2) 33) 40 = 0) ∧
    ((∀ i, i < 33 → i + 2 = if i < 33 then i + 2 else 99) ∧
      loadu (fun i => i + 2) 33 = loadu (fun i => if i < 33 then i + 2 else 99) 33) :=
  ⟨⟨by decide, (C4_loadu_round_trip (fun i => i + 2) 33).1 5 (by decide)⟩,
   ⟨by decide, by decide,
     (C4_loadu_round_trip (fun i => i + 2) 33).2.1 40 (by decide) (by decide)⟩,
   ⟨fun i hi => by
       show i + 2 = if i < 33 then i + 2 else 99
       rw [if_pos hi],
     (C4_loadu_round_trip (fun i => i + 2) 33).2.2 (fun i => if i < 33 then i + 2 else 99)
       (fun i hi => by
       show i + 2 = if i < 33 then i + 2 else 99
       rw [if_pos hi])⟩⟩

/-- C6 counterexample: `repeating` casts `val` to `i8`, so for `v = 256` the broadcast
lane is `0`, not `v`; the claim fails at `v = 256`, `L = 1`, `i = 0`. -/
theorem C6_counterexample : ¬ (extract (repeating 256 1) 0 = 256) := by decide

/-- C6 (amended to byte values `v < 256`): `repeating v L` allocates the minimum word
count covering `L` lanes (`⌈L/32⌉` words) and every backed lane — including lanes at
or beyond `L` — extracts to `v`; `repeating_max L` likewise fills every lane of every
word with the sentinel byte 127. -/
theorem C6_repeating_broadcast (v L : Nat) (hv : v < 256) :
    (repeating v L).v.length = (L + 31) / 32 ∧
    (∀ i, i < upper_bound (repeating v L) → extract (repeating v L) i = v) ∧
    (repeating_max L).v.length = (L + 31) / 32 ∧
    (∀ i, i < upper_bound (repeating_max L) → extract (repeating_max L) i = 127) := by
  have hlen : L / 32 + (if L % 32 > 0 then 1 else 0) = (L + 31) / 32 := by
    rcases Nat.eq_zero_or_pos (L % 32) with h | h
    · rw [if_neg (by omega)]
      omega
    · rw [if_pos (by omega)]
      omega
  refine ⟨?_, fun i hi => ?_, ?_, fun i hi => ?_⟩
  · show (List.replicate (L / 32 + if L % 32 > 0 then 1 else 0) (set1_epi8 v)).length = _
    rw [List.length_replicate, hlen]
  · unfold upper_bound at hi
    have hvlen : (repeating v L).v.length = L / 32 + (if L % 32 > 0 then 1 else 0) := by
      show (List.replicate (L / 32 + if L % 32 > 0 then 1 else 0) (set1_epi8 v)).length = _
      rw [List.length_replicate]
    rw [hvlen] at hi
    unfold extract
    show ((List.replicate (L / 32 + if L % 32 > 0 then 1 else 0) (set1_epi8 v)).getD
      (i / 32) zeroWord).getD (i % 32) 0 = v
    have hlt : i / 32 < L / 32 + (if L % 32 > 0 then 1 else 0) := by omega
    rw [getD_replicate_word _ _ _ hlt, set1_epi8_getD v (i % 32) (by omega)]
    omega
  · show (List.replicate (L / 32 + if L % 32 > 0 then 1 else 0) (set1_epi8 127)).length = _
    rw [List.length_replicate, hlen]
  · unfold upper_bound at hi
    have hvlen : (repeating_max L).v.length = L / 32 + (if L % 32 > 0 then 1 else 0) := by
      show (List.replicate (L / 32 + if L % 32 > 0 then 1 else 0) (set1_epi8 127)).length = _
      rw [List.length_replicate]
    rw [hvlen] at hi
    unfold extract
    show ((List.replicate (L / 32 + if L % 32 > 0 then 1 else 0) (set1_epi8 127)).getD
      (i / 32) zeroWord).getD (i % 32) 0 = 127
    have hlt : i / 32 < L / 32 + (if L % 32 > 0 then 1 else 0) := by omega
    rw [getD_replicate_word _ _ _ hlt, set1_epi8_getD 127 (i % 32) (by omega)]

theorem C6_repeating_broadcast_witness :
    (9 : Nat) < 256 ∧
      ((repeating 9 33).v.length = (33 + 31) / 32 ∧
        (∀ i, i < upper_bound (repeating 9 33) → extract (repeating 9 33) i = 9) ∧
        (repeating_max 33).v.length = (33 + 31) / 32 ∧
        (∀ i, i < upper_bound (repeating_max 33) → extract (repeating_max 33) i = 127)) :=
  ⟨by decide, C6_repeating_broadcast 9 33 (by decide)⟩

/-- C8: `fill_str dest src` fails (the `assert!` fires, modelled as `none`) exactly
when `src` is longer than `dest`; otherwise it copies `src` over the prefix of `dest`
of length `src.len()` and leaves the remaining bytes of `dest` unchanged. -/
theorem C8_fill_str (dest src : List Nat) :
    (fill_str dest src = none ↔ dest.length < src.length) ∧
    (src.length ≤ dest.length →
      ∃ l, fill_str dest src = some l ∧ l.length = dest.length ∧
        l.take src.length = src ∧ l.drop src.length = dest.drop src.length) := by
  constructor
  · unfold fill_str
    by_cases h : src.length ≤ dest.length
    · rw [if_pos h]
      constructor
      · intro hx
        exact absurd hx (by simp)
      · intro hx
        omega
    · rw [if_neg h]
      constructor
      · intro _
        omega
      · intro _
        rfl
  · intro h
    refine ⟨src ++ dest.drop src.length, ?_, ?_, ?_, ?_⟩
    · unfold fill_str
      rw [if_pos h]
    · rw [List.length_append, List.length_drop]
      omega
    · exact List.take_left src (dest.drop src.length)
    · exact List.drop_left src (dest.drop src.length)

theorem C8_fill_str_witness :
    (fill_str [0, 0, 0] [1, 2, 3, 4] = none ↔ ([0, 0, 0] : List Nat).length < [1, 2, 3, 4].length) ∧
    (([1, 2, 3, 4] : List Nat).length ≤ ([0, 0, 0, 0, 0] : List Nat).length ∧
      ∃ l, fill_str [0, 0, 0, 0, 0] [1, 2, 3, 4] = some l ∧ l.length = ([0, 0, 0, 0, 0] : List Nat).length ∧
        l.take ([1, 2, 3, 4] : List Nat).length = [1, 2, 3, 4] ∧
        l.drop ([1, 2, 3, 4] : List Nat).length = ([0, 0, 0, 0, 0] : List Nat).drop [1, 2, 3, 4].length) :=
  ⟨(C8_fill_str [0, 0, 0] [1, 2, 3, 4]).1,
   by decide,
   (C8_fill_str [0, 0, 0, 0, 0] [1, 2, 3, 4]).2 (by decide)⟩

/-- C9: the comparison/selection lanes are signed `i8`, not unsigned bytes: the lane
minimum of 200 and 1 is 200 (200 reads as −56), not the unsigned minimum 1; the
maximum is 1; `cmpgt` holds for 1 over 200 and not conversely; and the sentinel byte
of `repeating_max`, `insert_last_max` and `insert_first_max` is 127, the largest
signed byte (`toI8 127 = 127`, while byte 255 reads as −1). -/
theorem C9_signed_lane_semantics :
    extract (min (repeating 200 32) (repeating 1 32)) 0 = 200 ∧
    extract (min (repeating 200 32) (repeating 1 32)) 0 ≠ Nat.min 200 1 ∧
    extract (max (repeating 200 32) (repeating 1 32)) 0 = 1 ∧
    extract (cmpgt (repeating 1 32) (repeating 200 32)) 0 = 255 ∧
    extract (cmpgt (repeating 200 32) (repeating 1 32)) 0 = 0 ∧
    toI8 200 < toI8 1 ∧
    extract (repeating_max 64) 37 = 127 ∧
    (insert_last_max (repeating 0 32)).map (fun y => extract y 31) = some 127 ∧
    (insert_first_max (repeating 0 32)).map (fun y => extract y 0) = some 127 ∧
    extract (triple_min_length (repeating 100 32) (repeating 200 32) (repeating 1 32)
      (repeating 10 32) (repeating 20 32) (repeating 30 32)
      (repeating 0 32) (repeating 0 32)).1 0 = 200 ∧
    extract (triple_min_length (repeating 100 32) (repeating 200 32) (repeating 1 32)
      (repeating 10 32) (repeating 20 32) (repeating 30 32)
      (repeating 0 32) (repeating 0 32)).2 0 = 20 ∧
    toI8 127 = 127 ∧
    toI8 255 = -1 := by
  decide

/-! ### The fused triple-minimum primitive -/

theorem toI8_inj (x y : Nat) (hx : x < 256) (hy : y < 256) (h : toI8 x = toI8 y) : x = y := by
  unfold toI8 at h
  split_ifs at h <;> omega

theorem specMin8_lt (x y : Nat) (hx : x < 256) (hy : y < 256) : specMin8 x y < 256 := by
  unfold specMin8
  split_ifs <;> omega

theorem tml_min_lane (sub ag bg : Word) (k : Nat) (hk : k < 32) :
    (tml_min_word sub ag bg).getD k 0
      = specMin8 (sub.getD k 0) (specMin8 (ag.getD k 0) (bg.getD k 0)) := by
  unfold tml_min_word
  rw [min_epi8_getD _ _ k hk, min_epi8_getD _ _ k hk]
  rfl

theorem tml_length_lane (sub ag bg sl al bl : Word) (k : Nat) (hk : k < 32)
    (hS : sub.getD k 0 < 256) (hA : ag.getD k 0 < 256) (hB : bg.getD k 0 < 256) :
    (tml_length_word sub ag bg sl al bl).getD k 0
      = specStage2Len (sub.getD k 0) (specMin8 (ag.getD k 0) (bg.getD k 0))
          (sl.getD k 0)
          (specStage1Len (ag.getD k 0) (bg.getD k 0) (al.getD k 0) (bl.getD k 0)) := by
  simp only [tml_length_word]
  have eblendv : ∀ x y z : Word, (blendv_epi8 x y z).getD k 0
      = if 128 ≤ z.getD k 0 % 256 then y.getD k 0 else x.getD k 0 :=
    fun x y z => blendv_epi8_getD x y z k hk
  have ecmpeq : ∀ x y : Word, (cmpeq_epi8 x y).getD k 0
      = if x.getD k 0 = y.getD k 0 then 255 else 0 :=
    fun x y => cmpeq_epi8_getD x y k hk
  have ecmpgt : ∀ x y : Word, (cmpgt_epi8 x y).getD k 0
      = if toI8 (y.getD k 0) < toI8 (x.getD k 0) then 255 else 0 :=
    fun x y => cmpgt_epi8_getD x y k hk
  have emin : ∀ x y : Word, (min_epi8 x y).getD k 0
      = if toI8 (x.getD k 0) < toI8 (y.getD k 0) then x.getD k 0 else y.getD k 0 :=
    fun x y => min_epi8_getD x y k hk
  have emax : ∀ x y : Word, (max_epi8 x y).getD k 0
      = if toI8 (y.getD k 0) < toI8 (x.getD k 0) then x.getD k 0 else y.getD k 0 :=
    fun x y => max_epi8_getD x y k hk
  simp only [eblendv, ecmpeq, ecmpgt, emin, emax]
  have hL1 : (if 128 ≤ (if ag.getD k 0 = bg.getD k 0 then 255 else 0) % 256
        then (if toI8 (bl.getD k 0) < toI8 (al.getD k 0) then al.getD k 0 else bl.getD k 0)
        else (if 128 ≤ (if toI8 (bg.getD k 0) < toI8 (ag.getD k 0) then 255 else 0) % 256
          then bl.getD k 0 else al.getD k 0))
      = specStage1Len (ag.getD k 0) (bg.getD k 0) (al.getD k 0) (bl.getD k 0) := by
    unfold specStage1Len specMax8
    by_cases hab : ag.getD k 0 = bg.getD k 0
    · rw [if_pos hab, if_pos hab, if_pos (show (128 : Nat) ≤ 255 % 256 by norm_num)]
    · rw [if_neg hab, if_neg hab, if_neg (show ¬ (128 : Nat) ≤ 0 % 256 by norm_num)]
      by_cases hgt : toI8 (bg.getD k 0) < toI8 (ag.getD k 0)
      · rw [if_pos hgt, if_pos (show (128 : Nat) ≤ 255 % 256 by norm_num),
          if_neg (show ¬ toI8 (ag.getD k 0) < toI8 (bg.getD k 0) by omega)]
      · have hne : toI8 (ag.getD k 0) ≠ toI8 (bg.getD k 0) :=
          fun hc => hab (toI8_inj _ _ hA hB hc)
        rw [if_neg hgt, if_neg (show ¬ (128 : Nat) ≤ 0 % 256 by norm_num),
          if_pos (show toI8 (ag.getD k 0) < toI8 (bg.getD k 0) by omega)]
  rw [hL1]
  unfold specStage2Len specMax8 specMin8
  have hMlt : (if toI8 (ag.getD k 0) < toI8 (bg.getD k 0) then ag.getD k 0 else bg.getD k 0)
      < 256 := specMin8_lt _ _ hA hB
  by_cases heq : sub.getD k 0
      = (if toI8 (ag.getD k 0) < toI8 (bg.getD k 0) then ag.getD k 0 else bg.getD k 0)
  · rw [if_pos heq, if_pos heq, if_pos (show (128 : Nat) ≤ 255 % 256 by norm_num)]
  · rw [if_neg heq, if_neg heq, if_neg (show ¬ (128 : Nat) ≤ 0 % 256 by norm_num)]
    by_cases hgt : toI8 (if toI8 (ag.getD k 0) < toI8 (bg.getD k 0) then ag.getD k 0
        else bg.getD k 0) < toI8 (sub.getD k 0)
    · rw [if_pos hgt, if_pos (show (128 : Nat) ≤ 255 % 256 by norm_num),
        if_neg (show ¬ toI8 (sub.getD k 0)
          < toI8 (if toI8 (ag.getD k 0) < toI8 (bg.getD k 0) then ag.getD k 0
              else bg.getD k 0) by omega)]
    · have hne : toI8 (sub.getD k 0)
          ≠ toI8 (if toI8 (ag.getD k 0) < toI8 (bg.getD k 0) then ag.getD k 0
              else bg.getD k 0) :=
        fun hc => heq (toI8_inj _ _ hS hMlt hc)
      rw [if_neg hgt, if_neg (show ¬ (128 : Nat) ≤ 0 % 256 by norm_num),
        if_pos (show toI8 (sub.getD k 0)
          < toI8 (if toI8 (ag.getD k 0) < toI8 (bg.getD k 0) then ag.getD k 0
              else bg.getD k 0) by omega)]

theorem extract_repeating_lt (v L i : Nat) : extract (repeating v L) i < 256 := by
  unfold extract
  rcases Nat.lt_or_ge (i / 32) ((repeating v L).v.length) with h | h
  · have hvlen : (repeating v L).v.length = L / 32 + (if L % 32 > 0 then 1 else 0) := by
      show (List.replicate (L / 32 + if L % 32 > 0 then 1 else 0) (set1_epi8 v)).length = _
      rw [List.length_replicate]
    rw [hvlen] at h
    show ((List.replicate (L / 32 + if L % 32 > 0 then 1 else 0) (set1_epi8 v)).getD
      (i / 32) zeroWord).getD (i % 32) 0 < 256
    rw [getD_replicate_word _ _ _ h, set1_epi8_getD v (i % 32) (by omega)]
    omega
  · rw [List.getD_eq_default ((repeating v L).v) zeroWord (by simpa using h), zeroWord_getD]
    omega

/-- C2: on equal-word-count operands with byte-valued cost lanes, every lane of
`triple_min_length` follows the two left-associated stages of the claim:
`res_min` holds `min(sub, min(a_gap, b_gap))` (signed lane order), and `res_length`
holds the stage-2 length, where each stage takes the `max` of the competing lengths
on a cost tie and otherwise the length paired with the smaller cost. -/
theorem C2_triple_min_length_stages
    (sub a_gap b_gap sub_length a_gap_length b_gap_length res_min res_length : AvxNx32x8)
    (_h1 : a_gap.v.length = sub.v.length) (_h2 : b_gap.v.length = sub.v.length)
    (_h3 : sub_length.v.length = sub.v.length) (_h4 : a_gap_length.v.length = sub.v.length)
    (_h5 : b_gap_length.v.length = sub.v.length)
    (hm : res_min.v.length = sub.v.length) (hl : res_length.v.length = sub.v.length)
    (hbs : ∀ i, extract sub i < 256) (hba : ∀ i, extract a_gap i < 256)
    (hbb : ∀ i, extract b_gap i < 256) :
    ∀ i, i < 32 * sub.v.length →
      extract (triple_min_length sub a_gap b_gap sub_length a_gap_length b_gap_length
          res_min res_length).1 i
        = specMin8 (extract sub i) (specMin8 (extract a_gap i) (extract b_gap i)) ∧
      extract (triple_min_length sub a_gap b_gap sub_length a_gap_length b_gap_length
          res_min res_length).2 i
        = specStage2Len (extract sub i) (specMin8 (extract a_gap i) (extract b_gap i))
            (extract sub_length i)
            (specStage1Len (extract a_gap i) (extract b_gap i)
              (extract a_gap_length i) (extract b_gap_length i)) := by
  intro i hi
  have hdiv : i / 32 < sub.v.length := by omega
  have hmod : i % 32 < 32 := by omega
  constructor
  · show (((List.range res_min.v.length).map (fun j =>
        if j < sub.v.length then
          tml_min_word (sub.v.getD j zeroWord) (a_gap.v.getD j zeroWord) (b_gap.v.getD j zeroWord)
        else res_min.v.getD j zeroWord)).getD (i / 32) zeroWord).getD (i % 32) 0 = _
    rw [getD_map_range _ _ (i / 32) (by omega), if_pos hdiv,
      tml_min_lane _ _ _ (i % 32) hmod]
    rfl
  · show (((List.range res_length.v.length).map (fun j =>
        if j < sub.v.length then
          tml_length_word (sub.v.getD j zeroWord) (a_gap.v.getD j zeroWord)
            (b_gap.v.getD j zeroWord) (sub_length.v.getD j zeroWord)
            (a_gap_length.v.getD j zeroWord) (b_gap_length.v.getD j zeroWord)
        else res_length.v.getD j zeroWord)).getD (i / 32) zeroWord).getD (i % 32) 0 = _
    rw [getD_map_range _ _ (i / 32) (by omega), if_pos hdiv,
      tml_length_lane _ _ _ _ _ _ (i % 32) hmod (hbs i) (hba i) (hbb i)]
    rfl

theorem C2_triple_min_length_stages_witness :
    extract (triple_min_length (repeating 5 32) (repeating 5 32) (repeating 5 32)
      (repeating 3 32) (repeating 7 32) (repeating 4 32)
      (repeating 0 32) (repeating 0 32)).1 0 = 5 ∧
    extract (triple_min_length (repeating 5 32) (repeating 5 32) (repeating 5 32)
      (repeating 3 32) (repeating 7 32) (repeating 4 32)
      (repeating 0 32) (repeating 0 32)).2 0 = 7 := by
  have h := C2_triple_min_length_stages (repeating 5 32) (repeating 5 32) (repeating 5 32)
    (repeating 3 32) (repeating 7 32) (repeating 4 32) (repeating 0 32) (repeating 0 32)
    rfl rfl rfl rfl rfl rfl rfl
    (fun i => extract_repeating_lt 5 32 i) (fun i => extract_repeating_lt 5 32 i)
    (fun i => extract_repeating_lt 5 32 i) 0 (by decide)
  refine ⟨?_, ?_⟩
  · rw [h.1]
    decide
  · rw [h.2]
    decide

/-! ### Cross-lane shifts -/

theorem shiftL_mid_lane (c n : Word) (k : Nat) (hk : k < 32) :
    (alignr_epi8 (permute2x128 c n 33) c 1).getD k 0
      = if k < 31 then c.getD (k + 1) 0 else n.getD 0 0 := by
  interval_cases k <;> rfl

theorem shiftL_last_lane (c : Word) (k : Nat) (hk : k < 32) :
    (alignr_epi8 (permute2x128 c c 129) c 1).getD k 0
      = if k < 31 then c.getD (k + 1) 0 else 0 := by
  interval_cases k <;> rfl

theorem shiftR_mid_lane (c p : Word) (k : Nat) (hk : k < 32) :
    (alignr_epi8 c (permute2x128 c p 3) 15).getD k 0
      = if k = 0 then p.getD 31 0 else c.getD (k - 1) 0 := by
  interval_cases k <;> rfl

theorem shiftR_first_lane (c : Word) (k : Nat) (hk : k < 32) :
    (alignr_epi8 c (permute2x128 c c 8) 15).getD k 0
      = if k = 0 then 0 else c.getD (k - 1) 0 := by
  interval_cases k <;> rfl

theorem shift_left_1_some (x : AvxNx32x8) (hn : x.v.length ≠ 0) :
    shift_left_1 x = some ⟨x.len, (List.range x.v.length).map (fun i =>
      if i + 1 < x.v.length then
        alignr_epi8 (permute2x128 (x.v.getD i zeroWord) (x.v.getD (i+1) zeroWord) 33)
          (x.v.getD i zeroWord) 1
      else
        alignr_epi8 (permute2x128 (x.v.getD i zeroWord) (x.v.getD i zeroWord) 129)
          (x.v.getD i zeroWord) 1)⟩ := by
  unfold shift_left_1
  rw [if_neg hn]

theorem shift_right_1_some (x : AvxNx32x8) (hn : x.v.length ≠ 0) :
    shift_right_1 x = some ⟨x.len, (List.range x.v.length).map (fun i =>
      if i = 0 then
        alignr_epi8 (x.v.getD 0 zeroWord)
          (permute2x128 (x.v.getD 0 zeroWord) (x.v.getD 0 zeroWord) 8) 15
      else
        alignr_epi8 (x.v.getD i zeroWord)
          (permute2x128 (x.v.getD i zeroWord) (x.v.getD (i-1) zeroWord) 3) 15)⟩ := by
  unfold shift_right_1
  rw [if_neg hn]

theorem shift_left_1_lane (x y : AvxNx32x8) (hy : shift_left_1 x = some y)
    (j : Nat) (hj : j < 32 * x.v.length) :
    extract y j = if j + 1 < 32 * x.v.length then extract x (j + 1) else 0 := by
  have hn : x.v.length ≠ 0 := by omega
  rw [shift_left_1_some x hn] at hy
  have hy' := Option.some.inj hy
  subst hy'
  unfold extract
  show (((List.range x.v.length).map _).getD (j / 32) zeroWord).getD (j % 32) 0 = _
  rw [getD_map_range _ _ (j / 32) (by omega)]
  by_cases hmid : j / 32 + 1 < x.v.length
  · rw [if_pos hmid, shiftL_mid_lane _ _ (j % 32) (by omega)]
    by_cases hk : j % 32 < 31
    · rw [if_pos hk, if_pos (by omega)]
      have e1 : (j + 1) / 32 = j / 32 := by omega
      have e2 : (j + 1) % 32 = j % 32 + 1 := by omega
      rw [e1, e2]
    · rw [if_neg hk, if_pos (by omega)]
      have e1 : (j + 1) / 32 = j / 32 + 1 := by omega
      have e2 : (j + 1) % 32 = 0 := by omega
      rw [e1, e2]
  · rw [if_neg hmid, shiftL_last_lane _ (j % 32) (by omega)]
    by_cases hk : j % 32 < 31
    · rw [if_pos hk, if_pos (by omega)]
      have e1 : (j + 1) / 32 = j / 32 := by omega
      have e2 : (j + 1) % 32 = j % 32 + 1 := by omega
      rw [e1, e2]
    · rw [if_neg hk, if_neg (by omega)]

theorem shift_right_1_lane (x y : AvxNx32x8) (hy : shift_right_1 x = some y)
    (j : Nat) (hj : j < 32 * x.v.length) :
    extract y j = if j = 0 then 0 else extract x (j - 1) := by
  have hn : x.v.length ≠ 0 := by omega
  rw [shift_right_1_some x hn] at hy
  have hy' := Option.some.inj hy
  subst hy'
  unfold extract
  show (((List.range x.v.length).map _).getD (j / 32) zeroWord).getD (j % 32) 0 = _
  rw [getD_map_range _ _ (j / 32) (by omega)]
  by_cases hfirst : j / 32 = 0
  · rw [if_pos hfirst, shiftR_first_lane _ (j % 32) (by omega)]
    by_cases hk : j % 32 = 0
    · rw [if_pos hk, if_pos (by omega)]
    · rw [if_neg hk, if_neg (by omega)]
      have e1 : (j - 1) / 32 = j / 32 := by omega
      have e2 : (j - 1) % 32 = j % 32 - 1 := by omega
      rw [e1, e2, hfirst]
  · rw [if_neg hfirst, shiftR_mid_lane _ _ (j % 32) (by omega)]
    by_cases hk : j % 32 = 0
    · rw [if_pos hk, if_neg (by omega)]
      have e1 : (j - 1) / 32 = j / 32 - 1 := by omega
      have e2 : (j - 1) % 32 = 31 := by omega
      rw [e1, e2]
    · rw [if_neg hk, if_neg (by omega)]
      have e1 : (j - 1) / 32 = j / 32 := by omega
      have e2 : (j - 1) % 32 = j % 32 - 1 := by omega
      rw [e1, e2]

theorem shift_left_1_v_length (x y : AvxNx32x8) (hy : shift_left_1 x = some y) :
    y.v.length = x.v.length := by
  unfold shift_left_1 at hy
  by_cases hn : x.v.length = 0
  · rw [if_pos hn] at hy
    exact absurd hy (by simp)
  · rw [if_neg hn] at hy
    have hy' := Option.some.inj hy
    subst hy'
    simp

/-- C5: for a vector with at least one logical lane (and the construction invariant
`words = ⌈len/32⌉`), `shift_left_1` then `shift_right_1` restores every lane at a
logical index in `[1, len)` — including indices whose shifts cross a 32-lane word
boundary — while lane 0 ends up zero. -/
theorem C5_shift_round_trip (x : AvxNx32x8) (hlen : 1 ≤ x.len)
    (hwf : x.v.length = x.len / 32 + (if x.len % 32 > 0 then 1 else 0)) :
    ∃ y z, shift_left_1 x = some y ∧ shift_right_1 y = some z ∧
      extract z 0 = 0 ∧ ∀ j, 1 ≤ j → j < x.len → extract z j = extract x j := by
  have hn : x.v.length ≠ 0 := by
    rcases Nat.eq_zero_or_pos (x.len % 32) with h | h
    · rw [hwf, if_neg (by omega)]
      omega
    · rw [hwf, if_pos (by omega)]
      omega
  have hub : x.len ≤ 32 * x.v.length := by
    rcases Nat.eq_zero_or_pos (x.len % 32) with h | h
    · rw [hwf, if_neg (by omega)]
      omega
    · rw [hwf, if_pos (by omega)]
      omega
  obtain ⟨y, hy⟩ : ∃ y, shift_left_1 x = some y := ⟨_, shift_left_1_some x hn⟩
  have hylen : y.v.length = x.v.length := shift_left_1_v_length x y hy
  have hyn : y.v.length ≠ 0 := by omega
  obtain ⟨z, hz⟩ : ∃ z, shift_right_1 y = some z := ⟨_, shift_right_1_some y hyn⟩
  refine ⟨y, z, hy, hz, ?_, ?_⟩
  · have h0 := shift_right_1_lane y z hz 0 (by omega)
    rw [h0, if_pos rfl]
  · intro j hj1 hj2
    have hjb : j < 32 * y.v.length := by omega
    rw [shift_right_1_lane y z hz j hjb, if_neg (by omega),
      shift_left_1_lane x y hy (j - 1) (by omega)]
    have e : j - 1 + 1 = j := by omega
    rw [e, if_pos (by omega)]

theorem C5_shift_round_trip_witness :
    1 ≤ (loadu (fun i => i + 1) 40).len ∧
      (∃ y z, shift_left_1 (loadu (fun i => i + 1) 40) = some y ∧
        shift_right_1 y = some z ∧ extract z 0 = 0 ∧
        ∀ j, 1 ≤ j → j < (loadu (fun i => i + 1) 40).len →
          extract z j = extract (loadu (fun i => i + 1) 40) j) :=
  ⟨by decide, C5_shift_round_trip (loadu (fun i => i + 1) 40) (by decide) (by decide)⟩

/-! ### Operations undefined on a zero-word vector -/

/-- C10: a vector constructed with `len = 0` has zero words and `upper_bound 0`, and
each of the shift/insert operations that address a word through `self.v.len() - 1`
or `get_unchecked(0)` is defined (returns `some`) exactly when the vector has at
least one word. -/
theorem C10_zero_word_vector_ops :
    (∀ val, (repeating val 0).v.length = 0 ∧ upper_bound (repeating val 0) = 0) ∧
    (∀ x : AvxNx32x8, (shift_left_1 x).isSome ↔ x.v.length ≠ 0) ∧
    (∀ x : AvxNx32x8, (shift_right_1 x).isSome ↔ x.v.length ≠ 0) ∧
    (∀ (x : AvxNx32x8) val, (insert_last_0 x val).isSome ↔ x.v.length ≠ 0) ∧
    (∀ (x : AvxNx32x8) val, (insert_last_1 x val).isSome ↔ x.v.length ≠ 0) ∧
    (∀ (x : AvxNx32x8) val, (insert_last_2 x val).isSome ↔ x.v.length ≠ 0) ∧
    (∀ x : AvxNx32x8, (insert_last_max x).isSome ↔ x.v.length ≠ 0) ∧
    (∀ (x : AvxNx32x8) val, (insert_first x val).isSome ↔ x.v.length ≠ 0) ∧
    (∀ x : AvxNx32x8, (insert_first_max x).isSome ↔ x.v.length ≠ 0) := by
  refine ⟨fun val => ⟨rfl, rfl⟩, ?_, ?_, ?_, ?_, ?_, ?_, ?_, ?_⟩
  · intro x
    unfold shift_left_1
    by_cases h : x.v.length = 0 <;> simp [h]
  · intro x
    unfold shift_right_1
    by_cases h : x.v.length = 0 <;> simp [h]
  · intro x val
    unfold insert_last_0
    by_cases h : x.v.length = 0 <;> simp [h]
  · intro x val
    unfold insert_last_1
    by_cases h : x.v.length = 0 <;> simp [h]
  · intro x val
    unfold insert_last_2
    by_cases h : x.v.length = 0 <;> simp [h]
  · intro x
    unfold insert_last_max
    by_cases h : x.v.length = 0 <;> simp [h]
  · intro x val
    unfold insert_first
    by_cases h : x.v.length = 0 <;> simp [h]
  · intro x
    unfold insert_first_max
    by_cases h : x.v.length = 0 <;> simp [h]

theorem C10_zero_word_vector_ops_witness :
    ((repeating 7 0).v.length = 0 ∧ upper_bound (repeating 7 0) = 0) ∧
    ((shift_left_1 (repeating 7 0)).isSome ↔ (repeating 7 0).v.length ≠ 0) ∧
    ((insert_last_0 (repeating 7 0) 3).isSome ↔ (repeating 7 0).v.length ≠ 0) ∧
    ((insert_first (repeating 7 32) 3).isSome ↔ (repeating 7 32).v.length ≠ 0) :=
  ⟨C10_zero_word_vector_ops.1 7,
   C10_zero_word_vector_ops.2.1 (repeating 7 0),
   C10_zero_word_vector_ops.2.2.2.1 (repeating 7 0) 3,
   C10_zero_word_vector_ops.2.2.2.2.2.2.2.1 (repeating 7 32) 3⟩

/-! ### The reverse mode of `slow_loadu` -/

/-- C3 (what the code actually computes at the failing input): with a two-word vector
whose 64 lanes are all 9, `slow_loadu (idx := 32) (ptr := [1, 2]) (len := 2)
(reverse := true)` leaves lane 32 at 9 (the first source byte is never stored: the
store condition `arr_idx == 31 || i == len - 1` does not fire at `arr_idx = 0`), writes
lane 31 to 2, and clobbers lane 0 with 1 (word 0 is overwritten with the scratch copy
of word 1): the spec instead requires lane 32 = 1, lane 31 = 2, and every other lane
unchanged at 9. -/
theorem C3_slow_loadu_reverse_bug :
    extract (slow_loadu (repeating 9 64) 32 (fun i => i + 1) 2 true) 32 = 9 ∧
    extract (slow_loadu (repeating 9 64) 32 (fun i => i + 1) 2 true) 31 = 2 ∧
    extract (slow_loadu (repeating 9 64) 32 (fun i => i + 1) 2 true) 0 = 1 := by
  decide

end TripleAccel
